import Mathlib

/-!
# Verification of the greedy salesman core (`main.py`)

Shallow embedding of the core of the salesman program:

* the Station Indexer (the dict-building loop in `main`),
* the Weight Matrix Builder `to_matr`,
* the Greedy Path Finder `find_best` with its inner helpers `next` and `tsp`.

Edge weights are rationals extended with a top element (`math.inf` in the
source).  Python's mutable `seen` list is threaded explicitly as a
`List Bool`; the matrix built by `to_matr` is a list of rows as in the
source, while the Path Finder's graph argument is modelled as a total
function on indices (the source only ever reads in-range cells).  The
recursive helper `tsp` takes an explicit fuel argument; we prove below
that the fuel `N` used by `find_best` is never exhausted, mirroring the
fact that the Python recursion makes at most `N` calls.
-/

namespace Salesman

/-- Edge weights: a rational number or `math.inf`. -/
abbrev Weight := WithTop ℚ

/-- One row of the prepared data: `[route id, origin, destination, price,
duration in seconds]`.  Station ids and the route id are numeric tokens,
prices are floats (modelled as rationals) and durations integral seconds
(also modelled as rationals so that both cost dimensions share one
matrix type). -/
structure RouteRecord where
  route : ℕ
  origin : ℕ
  dest : ℕ
  price : ℚ
  duration : ℚ
deriving DecidableEq

/-! ## Greedy Path Finder (`find_best`, `next`, `tsp` in the source) -/

/-- The scanning loop of the inner function `next`: fold over `i in
range(N)` keeping the state `(min_node[0], min_node[1], this_cost)`,
starting from `min_node = (-1, math.inf)` and `this_cost = 0`, updating
all three exactly when `not seen[i] and g[node][i] < min_node[1]`. -/
def next_min (N : ℕ) (g : ℕ → ℕ → Weight) (seen : List Bool) (node : ℕ) :
    ℤ × Weight × ℚ :=
  (List.range N).foldl
    (fun s i =>
      if seen.getD i false = false ∧ g node i < s.2.1 then
        ((i : ℤ), g node i, (g node i).untop' 0)
      else s)
    (-1, ⊤, 0)

/-- The inner function `next(node, curr_cost)` of `find_best`: pick the
cheapest unvisited successor of `node`; `None` when the scan left
`min_node[0] == -1`, otherwise `(curr_cost + this_cost, min_node[0])`. -/
def next (N : ℕ) (g : ℕ → ℕ → Weight) (seen : List Bool) (node : ℕ)
    (curr_cost : ℚ) : Option (ℚ × ℕ) :=
  let m := next_min N g seen node
  if m.1 = -1 then none
  else some (curr_cost + m.2.2, m.1.toNat)

/-- The inner recursive function `tsp(node, cost)` of `find_best`.  The
mutable closure state (`seen`, `path`) is threaded explicitly and also
returned.  `fuel` bounds the recursion depth; `find_best` calls it with
fuel `N`, which is proved sufficient below. -/
def tsp (N : ℕ) (g : ℕ → ℕ → Weight) (fuel : ℕ) (seen : List Bool)
    (path : List ℕ) (node : ℕ) (cost : ℚ) :
    Option ℚ × List Bool × List ℕ :=
  let seen1 := seen.set node true
  let path1 := path ++ [node]
  let next_nd := next N g seen1 node cost
  if path1.length = N then (some cost, seen1, path1)
  else
    match next_nd with
    | none => (none, seen1, path1)
    | some (c1, n1) =>
      match fuel with
      | 0 => (none, seen1, path1)
      | fuel1 + 1 => tsp N g fuel1 seen1 path1 n1 c1

/-- `find_best(N, g, node)`: run the greedy walk and post-process its
result with `if not result: return None` — note that this Python
truthiness test sends a *zero* final cost to `None` as well. -/
def find_best (N : ℕ) (g : ℕ → ℕ → Weight) (node : ℕ) :
    Option (ℚ × List ℕ) :=
  let r := tsp N g N (List.replicate N false) [] node 0
  match r.1 with
  | none => none
  | some result => if result = 0 then none else some (result, r.2.2)

/-- Total weight of the consecutive edges of a path, summed in `Weight`
(so a missing edge poisons the sum with `⊤`). -/
def pathCostW (g : ℕ → ℕ → Weight) : List ℕ → Weight
  | a :: b :: l => g a b + pathCostW g (b :: l)
  | _ => 0

/-! ## Station Indexer (the `v` dict loop in `main`) -/

/-- One step of the indexer: `if s not in v: v[s] = len(v)`.  The dict is
modelled as an association list in insertion order. -/
def addStation (v : List (ℕ × ℕ)) (s : ℕ) : List (ℕ × ℕ) :=
  if (v.lookup s).isSome then v else v ++ [(s, v.length)]

/-- The indexer loop of `main`: scan origin then destination of each
record in record order. -/
def index_stations (data : List RouteRecord) : List (ℕ × ℕ) :=
  data.foldl (fun v r => addStation (addStation v r.origin) r.dest) []

/-! ## Weight Matrix Builder (`to_matr`) -/

/-- Read `matr[i][j]` of a list-of-rows matrix (in-range in all source
executions; out-of-range reads default to `⊤`). -/
def matrGet (m : List (List Weight)) (i j : ℕ) : Weight :=
  (m.getD i []).getD j ⊤

/-- Write `matr[i][j] = x`. -/
def matrSet (m : List (List Weight)) (i j : ℕ) (x : Weight) :
    List (List Weight) :=
  m.set i ((m.getD i []).set j x)

/-- The message of the `raise Exception(...)` for an unrecognized kind. -/
def invalidKindMsg : String := "InvalidArgument: kind must be 0 or 1"

/-- `v[k]` for the station dict modelled as an association list. -/
def vIdx (v : List (ℕ × ℕ)) (s : ℕ) : ℕ := (v.lookup s).getD 0

/-- `to_matr(v, data, kind)`: initialize an `N × N` grid of `math.inf`
(`N = len(v)`), then for each record select the weight by `kind`
(`0` = price, `1` = duration, anything else raises), and store it when
strictly smaller than the current cell.  The `raise` sits inside the
record loop, exactly as in the source. -/
def to_matr (v : List (ℕ × ℕ)) (data : List RouteRecord) (kind : ℤ) :
    Except String (List (List Weight)) :=
  let matr0 := List.replicate v.length (List.replicate v.length (⊤ : Weight))
  data.foldlM
    (fun matr r =>
      (if kind = 0 then Except.ok r.price
       else if kind = 1 then Except.ok r.duration
       else Except.error invalidKindMsg).map
        (fun item =>
          if (item : Weight) < matrGet matr (vIdx v r.origin) (vIdx v r.dest)
          then matrSet matr (vIdx v r.origin) (vIdx v r.dest) (item : Weight)
          else matr))
    matr0

/-- Weight of a record under a cost dimension (`r[3]` or `r[4]`). -/
def recWeight (kind : ℤ) (r : RouteRecord) : ℚ :=
  if kind = 0 then r.price else r.duration

/-- The minimum weight over all records contributing to cell `(i, j)`,
`⊤` when there is none. -/
def cellMin (v : List (ℕ × ℕ)) (data : List RouteRecord) (kind : ℤ)
    (i j : ℕ) : Weight :=
  ((data.filter (fun r => vIdx v r.origin == i && vIdx v r.dest == j)).map
    (fun r => ((recWeight kind r : ℚ) : Weight))).foldr min ⊤

/-! ## Reachable call states of the greedy recursion -/

/-- The states `(seen, path, node, cost)` at which `tsp(node, cost)` is
entered during a run of `find_best`: the initial call, and each
recursive call made after marking the current node, appending it to the
path, and selecting the next node (which only happens when the extended
path is still shorter than `N`). -/
inductive WalkState (N : ℕ) (g : ℕ → ℕ → Weight) :
    List Bool → List ℕ → ℕ → ℚ → Prop
  | start (node : ℕ) : node < N →
      WalkState N g (List.replicate N false) [] node 0
  | step (seen : List Bool) (path : List ℕ) (node : ℕ) (cost c1 : ℚ)
      (n1 : ℕ) :
      WalkState N g seen path node cost →
      (path ++ [node]).length ≠ N →
      next N g (seen.set node true) node cost = some (c1, n1) →
      WalkState N g (seen.set node true) (path ++ [node]) n1 c1

/-! ## List access helpers -/

theorem getD_set_self {α : Type} (l : List α) (i : ℕ) (a d : α)
    (h : i < l.length) : (l.set i a).getD i d = a := by
  simp [List.getD_eq_getElem?_getD, List.getElem?_set_self h]

theorem getD_set_ne {α : Type} (l : List α) (i j : ℕ) (a d : α)
    (h : i ≠ j) : (l.set i a).getD j d = l.getD j d := by
  simp [List.getD_eq_getElem?_getD, List.getElem?_set_ne h]

theorem getD_eq_default {α : Type} (l : List α) (i : ℕ) (d : α)
    (h : l.length ≤ i) : l.getD i d = d := by
  simp [List.getD_eq_getElem?_getD, List.getElem?_eq_none h]

theorem getD_mem {α : Type} (l : List α) (i : ℕ) (d : α)
    (h : i < l.length) : l.getD i d ∈ l := by
  rw [List.getD_eq_getElem?_getD, List.getElem?_eq_getElem h]
  exact List.getElem_mem h

theorem getD_replicate_false (n i : ℕ) :
    (List.replicate n false).getD i false = false := by
  rw [List.getD_eq_getElem?_getD, List.getElem?_replicate]
  split <;> rfl

theorem lt_length_of_getD_true {l : List Bool} {i : ℕ}
    (h : l.getD i false = true) : i < l.length := by
  by_contra hlt
  push_neg at hlt
  rw [List.getD_eq_getElem?_getD, List.getElem?_eq_none hlt] at h
  simp at h

@[simp] theorem untop'_zero_ofNat (n : ℕ) [n.AtLeastTwo] :
    WithTop.untop' (0 : ℚ) (no_index (OfNat.ofNat n)) = OfNat.ofNat n := rfl

@[simp] theorem untop'_zero_one : WithTop.untop' (0 : ℚ) 1 = 1 := rfl

/-! ## The scan of `next` selects the first strict minimum -/

/-- Invariant of the scanning loop of `next`: either no unvisited finite
candidate was found (`min_node` still `(-1, inf)`), or `min_node` holds
the first index attaining the minimum weight among unvisited candidates. -/
theorem next_min_spec (N : ℕ) (g : ℕ → ℕ → Weight) (seen : List Bool)
    (node : ℕ) :
    (next_min N g seen node = (-1, ⊤, 0) ∧
      ∀ i, i < N → seen.getD i false = false → g node i = ⊤) ∨
    (∃ j, j < N ∧
      next_min N g seen node = ((j : ℤ), g node j, (g node j).untop' 0) ∧
      seen.getD j false = false ∧ g node j ≠ ⊤ ∧
      (∀ i, i < N → seen.getD i false = false → g node j ≤ g node i) ∧
      (∀ i, i < j → seen.getD i false = false → g node j < g node i)) := by
  induction N with
  | zero =>
    left
    constructor
    · rfl
    · intro i hi
      omega
  | succ N ih =>
    have hsucc : next_min (N + 1) g seen node =
        (if seen.getD N false = false ∧ g node N < (next_min N g seen node).2.1
         then ((N : ℤ), g node N, (g node N).untop' 0)
         else next_min N g seen node) := by
      rw [next_min, List.range_succ, List.foldl_append]
      rfl
    rcases ih with ⟨heq, hall⟩ | ⟨j, hjN, heq, hunseen, hfin, hmin, hstrict⟩
    · rw [heq] at hsucc
      by_cases hc : seen.getD N false = false ∧ g node N < (⊤ : Weight)
      · right
        refine ⟨N, Nat.lt_succ_self N, ?_, hc.1, ?_, ?_, ?_⟩
        · rw [hsucc, if_pos hc]
        · exact (lt_top_iff_ne_top).mp hc.2
        · intro i hi hseen
          rcases Nat.lt_succ_iff_lt_or_eq.mp hi with hi' | hi'
          · rw [hall i hi' hseen]
            exact le_top
          · subst hi'
            exact le_refl _
        · intro i hi hseen
          rw [hall i hi hseen]
          exact hc.2
      · left
        constructor
        · rw [hsucc, if_neg hc]
        · intro i hi hseen
          rcases Nat.lt_succ_iff_lt_or_eq.mp hi with hi' | hi'
          · exact hall i hi' hseen
          · subst hi'
            rcases Decidable.not_and_iff_or_not.mp hc with h | h
            · exact absurd hseen h
            · exact (not_lt_top_iff).mp h
    · rw [heq] at hsucc
      by_cases hc : seen.getD N false = false ∧ g node N < g node j
      · right
        refine ⟨N, Nat.lt_succ_self N, ?_, hc.1, ?_, ?_, ?_⟩
        · rw [hsucc, if_pos hc]
        · exact (lt_top_iff_ne_top).mp (lt_of_lt_of_le hc.2 le_top)
        · intro i hi hseen
          rcases Nat.lt_succ_iff_lt_or_eq.mp hi with hi' | hi'
          · exact le_of_lt (lt_of_lt_of_le hc.2 (hmin i hi' hseen))
          · subst hi'
            exact le_refl _
        · intro i hi hseen
          exact lt_of_lt_of_le hc.2 (hmin i hi hseen)
      · right
        refine ⟨j, lt_trans hjN (Nat.lt_succ_self N), ?_, hunseen, hfin, ?_,
          hstrict⟩
        · rw [hsucc, if_neg hc]
        · intro i hi hseen
          rcases Nat.lt_succ_iff_lt_or_eq.mp hi with hi' | hi'
          · exact hmin i hi' hseen
          · subst hi'
            rcases Decidable.not_and_iff_or_not.mp hc with h | h
            · exact absurd hseen h
            · exact not_lt.mp h

/-- `next` returns `None` exactly when every unvisited candidate is at
infinite weight from the current node. -/
theorem next_none_char (N : ℕ) (g : ℕ → ℕ → Weight) (seen : List Bool)
    (node : ℕ) (curr : ℚ) :
    next N g seen node curr = none ↔
      ∀ i, i < N → seen.getD i false = false → g node i = ⊤ := by
  constructor
  · intro h
    rcases next_min_spec N g seen node with ⟨_, hall⟩ | ⟨j, _, heq, _, hfin, _, _⟩
    · exact hall
    · exfalso
      rw [next, heq] at h
      simp at h
  · intro hall
    rcases next_min_spec N g seen node with ⟨heq, _⟩ |
        ⟨j, hjN, _, hunseen, hfin, _, _⟩
    · rw [next, heq]
      rfl
    · exact absurd (hall j hjN hunseen) hfin

/-- When `next` returns a node, it is the unvisited candidate of
smallest weight from the current node, earliest index first, and the new
running cost adds exactly that weight. -/
theorem next_some_char (N : ℕ) (g : ℕ → ℕ → Weight) (seen : List Bool)
    (node : ℕ) (curr c : ℚ) (j : ℕ)
    (h : next N g seen node curr = some (c, j)) :
    j < N ∧ seen.getD j false = false ∧ g node j ≠ ⊤ ∧
    c = curr + (g node j).untop' 0 ∧
    (∀ i, i < N → seen.getD i false = false → g node j ≤ g node i) ∧
    (∀ i, i < j → seen.getD i false = false → g node j < g node i) := by
  rcases next_min_spec N g seen node with ⟨heq, _⟩ |
      ⟨j', hjN, heq, hunseen, hfin, hmin, hstrict⟩
  · rw [next, heq] at h
    simp at h
  · rw [next, heq] at h
    rw [if_neg (show ¬((j' : ℤ) = -1) by omega)] at h
    have h' := Option.some_inj.mp h
    have h2 : j' = j := by
      have := congrArg Prod.snd h'
      simpa using this
    subst h2
    have hc : c = curr + (g node j').untop' 0 := by
      have := congrArg Prod.fst h'
      simpa using this.symm
    exact ⟨hjN, hunseen, hfin, hc, hmin, hstrict⟩

/-! ## Pigeonhole helpers for paths inside `[0, N)` -/

theorem length_le_of_nodup_lt {l : List ℕ} {N : ℕ} (hnd : l.Nodup)
    (hlt : ∀ i ∈ l, i < N) : l.length ≤ N := by
  have hsub : l.toFinset ⊆ Finset.range N := by
    intro x hx
    rw [Finset.mem_range]
    exact hlt x (List.mem_toFinset.mp hx)
  have hcard := Finset.card_le_card hsub
  rwa [List.toFinset_card_of_nodup hnd, Finset.card_range] at hcard

theorem mem_of_nodup_lt_length {l : List ℕ} {N : ℕ} (hnd : l.Nodup)
    (hlt : ∀ i ∈ l, i < N) (hlen : l.length = N) : ∀ i, i < N → i ∈ l := by
  have hsub : l.toFinset ⊆ Finset.range N := by
    intro x hx
    rw [Finset.mem_range]
    exact hlt x (List.mem_toFinset.mp hx)
  have hcard : (Finset.range N).card ≤ l.toFinset.card := by
    rw [List.toFinset_card_of_nodup hnd, hlen, Finset.card_range]
  have heq := Finset.eq_of_subset_of_card_le hsub hcard
  intro i hi
  have : i ∈ l.toFinset := by
    rw [heq, Finset.mem_range]
    exact hi
  exact List.mem_toFinset.mp this

theorem coe_untop'_of_ne_top {x : Weight} (h : x ≠ ⊤) :
    ((x.untop' 0 : ℚ) : Weight) = x := by
  induction x using WithTop.recTopCoe with
  | top => exact absurd rfl h
  | coe q => simp [WithTop.untop'_coe]

/-! ## Master invariant of the recursive walk -/

/-- Invariant of `tsp`: started from a consistent state with enough
fuel, the walk appends the current node and a tail of fresh nodes to the
path, keeps the visited-set synchronized with the path, returns a cost
exactly when the path reaches length `N` (the cost accumulating every
traversed edge on top of the incoming cost), reports `None` only from a
state where every unvisited candidate of the final node is unreachable,
and never needs more fuel than it is given (one more unit changes
nothing). -/
theorem tsp_spec (N : ℕ) (g : ℕ → ℕ → Weight) :
    ∀ (fuel : ℕ) (seen : List Bool) (path : List ℕ) (node : ℕ) (cost : ℚ),
    seen.length = N →
    node < N →
    seen.getD node false = false →
    (∀ i, seen.getD i false = true ↔ i ∈ path) →
    path.Nodup →
    N ≤ fuel + path.length + 1 →
    ∃ res seenF pathF ext,
      tsp N g fuel seen path node cost = (res, seenF, pathF) ∧
      pathF = path ++ node :: ext ∧
      pathF.Nodup ∧
      seenF.length = N ∧
      (∀ i, seenF.getD i false = true ↔ i ∈ pathF) ∧
      pathF.length ≤ N ∧
      (∀ c, res = some c → pathF.length = N ∧
        ((c : ℚ) : Weight) = ((cost : ℚ) : Weight) + pathCostW g (node :: ext)) ∧
      (res = none → pathF.length < N ∧
        ∀ i, i < N → seenF.getD i false = false →
          g (pathF.getLastD 0) i = ⊤) ∧
      tsp N g (fuel + 1) seen path node cost = (res, seenF, pathF) := by
  intro fuel
  induction fuel with
  | zero =>
    intro seen path node cost hlen hnode hfresh hmark hnodup hfuel
    have hmem : node ∉ path := fun hm => by
      have := (hmark node).mpr hm
      rw [hfresh] at this
      exact Bool.false_ne_true this
    have hnodup1 : (path ++ [node]).Nodup := by
      refine List.Nodup.append hnodup (List.nodup_singleton _) ?_
      intro a ha hb
      rw [List.mem_singleton] at hb
      subst hb
      exact hmem ha
    have hmark1 : ∀ i, ((seen.set node true).getD i false = true) ↔
        i ∈ path ++ [node] := by
      intro i
      by_cases hi : i = node
      · subst hi
        rw [getD_set_self seen i true false (hlen ▸ hnode)]
        simp
      · rw [getD_set_ne seen node i true false (fun h => hi h.symm)]
        rw [hmark i]
        simp [hi]
    have hlt1 : ∀ i ∈ path ++ [node], i < N := by
      intro i hi
      have := (hmark1 i).mpr hi
      have hl := lt_length_of_getD_true this
      rwa [List.length_set, hlen] at hl
    have hle1 : (path ++ [node]).length ≤ N := length_le_of_nodup_lt hnodup1 hlt1
    have hge1 : N ≤ (path ++ [node]).length := by
      rw [List.length_append, List.length_singleton]
      omega
    have hN1 : (path ++ [node]).length = N := le_antisymm hle1 hge1
    have htsp : tsp N g 0 seen path node cost =
        (some cost, seen.set node true, path ++ [node]) := by
      rw [tsp.eq_def, if_pos hN1]
    have htsp1 : tsp N g 1 seen path node cost =
        (some cost, seen.set node true, path ++ [node]) := by
      rw [tsp.eq_def, if_pos hN1]
    refine ⟨some cost, seen.set node true, path ++ [node], [], htsp, by simp,
      hnodup1, ?_, hmark1, hle1, ?_, ?_, htsp1⟩
    · rw [List.length_set, hlen]
    · intro c hc
      have : c = cost := (Option.some_inj.mp hc).symm
      subst this
      refine ⟨hN1, ?_⟩
      simp [pathCostW]
    · intro hnone
      exact absurd hnone (by simp)
  | succ f ih =>
    intro seen path node cost hlen hnode hfresh hmark hnodup hfuel
    have hmem : node ∉ path := fun hm => by
      have := (hmark node).mpr hm
      rw [hfresh] at this
      exact Bool.false_ne_true this
    have hnodup1 : (path ++ [node]).Nodup := by
      refine List.Nodup.append hnodup (List.nodup_singleton _) ?_
      intro a ha hb
      rw [List.mem_singleton] at hb
      subst hb
      exact hmem ha
    have hmark1 : ∀ i, ((seen.set node true).getD i false = true) ↔
        i ∈ path ++ [node] := by
      intro i
      by_cases hi : i = node
      · subst hi
        rw [getD_set_self seen i true false (hlen ▸ hnode)]
        simp
      · rw [getD_set_ne seen node i true false (fun h => hi h.symm)]
        rw [hmark i]
        simp [hi]
    have hlt1 : ∀ i ∈ path ++ [node], i < N := by
      intro i hi
      have := (hmark1 i).mpr hi
      have hl := lt_length_of_getD_true this
      rwa [List.length_set, hlen] at hl
    have hle1 : (path ++ [node]).length ≤ N := length_le_of_nodup_lt hnodup1 hlt1
    have hlen1 : (seen.set node true).length = N := by
      rw [List.length_set, hlen]
    by_cases hN1 : (path ++ [node]).length = N
    · have htsp : tsp N g (f + 1) seen path node cost =
          (some cost, seen.set node true, path ++ [node]) := by
        rw [tsp.eq_def, if_pos hN1]
      have htsp1 : tsp N g (f + 2) seen path node cost =
          (some cost, seen.set node true, path ++ [node]) := by
        rw [tsp.eq_def, if_pos hN1]
      refine ⟨some cost, seen.set node true, path ++ [node], [], htsp, by simp,
        hnodup1, hlen1, hmark1, hle1, ?_, ?_, htsp1⟩
      · intro c hc
        have : c = cost := (Option.some_inj.mp hc).symm
        subst this
        refine ⟨hN1, ?_⟩
        simp [pathCostW]
      · intro hnone
        exact absurd hnone (by simp)
    · have hltN : (path ++ [node]).length < N := lt_of_le_of_ne hle1 hN1
      cases hx : next N g (seen.set node true) node cost with
      | none =>
        have htsp : tsp N g (f + 1) seen path node cost =
            (none, seen.set node true, path ++ [node]) := by
          rw [tsp.eq_def, if_neg hN1, hx]
        have htsp1 : tsp N g (f + 2) seen path node cost =
            (none, seen.set node true, path ++ [node]) := by
          rw [tsp.eq_def, if_neg hN1, hx]
        refine ⟨none, seen.set node true, path ++ [node], [], htsp, by simp,
          hnodup1, hlen1, hmark1, hle1, ?_, ?_, htsp1⟩
        · intro c hc
          exact absurd hc (by simp)
        · intro _
          refine ⟨hltN, ?_⟩
          rw [List.getLastD_concat]
          exact (next_none_char N g (seen.set node true) node cost).mp hx
      | some p =>
        obtain ⟨c1, n1⟩ := p
        obtain ⟨hn1N, hn1unseen, hn1fin, hc1, _, _⟩ :=
          next_some_char N g (seen.set node true) node cost c1 n1 hx
        have htsp : tsp N g (f + 1) seen path node cost =
            tsp N g f (seen.set node true) (path ++ [node]) n1 c1 := by
          rw [tsp.eq_def, if_neg hN1, hx]
        have htsp1 : tsp N g (f + 2) seen path node cost =
            tsp N g (f + 1) (seen.set node true) (path ++ [node]) n1 c1 := by
          rw [tsp.eq_def, if_neg hN1, hx]
        have hfuel1 : N ≤ f + (path ++ [node]).length + 1 := by
          rw [List.length_append, List.length_singleton]
          rw [List.length_append, List.length_singleton] at hN1
          omega
        obtain ⟨res, seenF, pathF, ext1, heq, hext, hndF, hlenF, hmarkF, hleF,
          hsome, hnone, hfueleq⟩ :=
          ih (seen.set node true) (path ++ [node]) n1 c1 hlen1 hn1N hn1unseen
            hmark1 hnodup1 hfuel1
        have hext' : pathF = path ++ node :: n1 :: ext1 := by
          rw [hext, List.append_assoc]
          rfl
        refine ⟨res, seenF, pathF, n1 :: ext1, htsp.trans heq, hext', hndF,
          hlenF, hmarkF, hleF, ?_, hnone, htsp1.trans hfueleq⟩
        intro c hc
        obtain ⟨hlenN, hcost⟩ := hsome c hc
        refine ⟨hlenN, ?_⟩
        have hcoe : ((c1 : ℚ) : Weight) = ((cost : ℚ) : Weight) + g node n1 := by
          rw [hc1, WithTop.coe_add, coe_untop'_of_ne_top hn1fin]
        rw [hcost, hcoe]
        have hpc : pathCostW g (node :: n1 :: ext1) =
            g node n1 + pathCostW g (n1 :: ext1) := by
          simp [pathCostW]
        rw [hpc, add_assoc]

/-! ## The walk as started by `find_best` -/

/-- Specialization of `tsp_spec` to the initial state used by
`find_best`: empty path, all-false visited-set, zero cost, fuel `N`. -/
theorem tsp_initial_spec (N : ℕ) (g : ℕ → ℕ → Weight) (start : ℕ)
    (h : start < N) :
    ∃ res seenF pathF,
      tsp N g N (List.replicate N false) [] start 0 = (res, seenF, pathF) ∧
      pathF.Nodup ∧
      (∀ i ∈ pathF, i < N) ∧
      pathF.head? = some start ∧
      (∀ i, seenF.getD i false = true ↔ i ∈ pathF) ∧
      pathF.length ≤ N ∧
      (∀ c, res = some c → pathF.length = N ∧
        ((c : ℚ) : Weight) = pathCostW g pathF) ∧
      (res = none → pathF.length < N ∧
        ∀ i, i < N → seenF.getD i false = false →
          g (pathF.getLastD 0) i = ⊤) := by
  have hmark : ∀ i, (List.replicate N false).getD i false = true ↔
      i ∈ ([] : List ℕ) := by
    intro i
    rw [getD_replicate_false]
    simp
  obtain ⟨res, seenF, pathF, ext, heq, hext, hnd, hlenF, hmarkF, hle, hsome,
    hnone, _⟩ :=
    tsp_spec N g N (List.replicate N false) [] start 0
      (List.length_replicate N false) h (getD_replicate_false N start) hmark
      List.nodup_nil (by simp)
  have hext' : pathF = start :: ext := by
    rw [hext]
    rfl
  refine ⟨res, seenF, pathF, heq, hnd, ?_, ?_, hmarkF, hle, ?_, hnone⟩
  · intro i hi
    have := (hmarkF i).mpr hi
    have hl := lt_length_of_getD_true this
    rwa [hlenF] at hl
  · rw [hext']
    rfl
  · intro c hc
    obtain ⟨hlenN, hcost⟩ := hsome c hc
    refine ⟨hlenN, ?_⟩
    rw [hcost, hext']
    simp

/-- One more unit of fuel than needed changes nothing, from the initial
state of `find_best`. -/
theorem tsp_fuel_succ_init (N : ℕ) (g : ℕ → ℕ → Weight) (start : ℕ)
    (h : start < N) (f : ℕ) (hf : N ≤ f + 1) :
    tsp N g (f + 1) (List.replicate N false) [] start 0 =
      tsp N g f (List.replicate N false) [] start 0 := by
  have hmark : ∀ i, (List.replicate N false).getD i false = true ↔
      i ∈ ([] : List ℕ) := by
    intro i
    rw [getD_replicate_false]
    simp
  obtain ⟨res, seenF, pathF, ext, heq, _, _, _, _, _, _, _, hsucc⟩ :=
    tsp_spec N g f (List.replicate N false) [] start 0
      (List.length_replicate N false) h (getD_replicate_false N start) hmark
      List.nodup_nil (by simpa using hf)
  rw [hsucc, heq]

/-- Any fuel of at least `N` computes the same walk as fuel `N`: the
recursion of `find_best` is bounded by `N` nested calls. -/
theorem tsp_fuel_ge (N : ℕ) (g : ℕ → ℕ → Weight) (start : ℕ)
    (h : start < N) :
    ∀ fuel, N ≤ fuel →
      tsp N g fuel (List.replicate N false) [] start 0 =
        tsp N g N (List.replicate N false) [] start 0 := by
  intro fuel
  induction fuel with
  | zero =>
    intro h0
    have : N = 0 := Nat.le_zero.mp h0
    subst this
    rfl
  | succ f ihf =>
    intro hNf
    by_cases hNe : N = f + 1
    · subst hNe
      rfl
    · have hNle : N ≤ f := by omega
      rw [tsp_fuel_succ_init N g start h f hNf]
      exact ihf hNle

/-! ## Concrete graphs for the scenarios -/

/-- A complete graph in which every edge (including self-loops) has
weight 5. -/
def g1 : ℕ → ℕ → Weight := fun _ _ => ((5 : ℚ) : Weight)

/-- Scenario B: three stations, price edges `0→1 = 10` and `1→0 = 1`
only; the walk `0 → 1` strands at 1. -/
def gB : ℕ → ℕ → Weight := fun i j =>
  if i = 0 ∧ j = 1 then ((10 : ℚ) : Weight)
  else if i = 1 ∧ j = 0 then ((1 : ℚ) : Weight)
  else ⊤

/-- Tie-break example: from node 0, candidates 1 and 2 both cost 5. -/
def gTie : ℕ → ℕ → Weight := fun i j =>
  if i = 0 ∧ (j = 1 ∨ j = 2) then ((5 : ℚ) : Weight) else ⊤

/-! ## Claim theorems for the Greedy Path Finder -/

/-- C1 (code bug): contrary to Scenario C of the specification, a
completed walk whose accumulated cost is 0 — in particular every
single-station graph — is thrown away by `find_best`: the walk `tsp`
terminates successfully with `(0, [start])`, yet `find_best` answers
"no result" because `if not result` treats the cost 0 as falsy. -/
theorem scenarioC_zero_cost_code_bug :
    tsp 1 g1 1 [false] [] 0 0 = (some 0, [true], [0]) ∧
      find_best 1 g1 0 = none := by
  constructor
  · norm_num +decide [tsp, next, next_min, g1, List.range_succ]
  · norm_num +decide [find_best, tsp, next, next_min, g1, List.range_succ]

/-- C2: whenever `find_best` returns a result, the path visits each of
the `N` stations exactly once starting at `start`, and the total cost is
the sum of the traversed edge weights. -/
theorem find_best_path_valid (N : ℕ) (g : ℕ → ℕ → Weight) (start : ℕ)
    (c : ℚ) (p : List ℕ) (hstart : start < N)
    (h : find_best N g start = some (c, p)) :
    p.length = N ∧ p.Nodup ∧ (∀ i, i ∈ p ↔ i < N) ∧
    p.head? = some start ∧ ((c : ℚ) : Weight) = pathCostW g p := by
  obtain ⟨res, seenF, pathF, heq, hnd, hlt, hhead, _, _, hsome, _⟩ :=
    tsp_initial_spec N g start hstart
  simp only [find_best] at h
  rw [heq] at h
  cases res with
  | none =>
    replace h : (none : Option (ℚ × List ℕ)) = some (c, p) := h
    exact absurd h (by simp)
  | some c0 =>
    replace h : (if c0 = 0 then (none : Option (ℚ × List ℕ))
        else some (c0, pathF)) = some (c, p) := h
    by_cases hc0 : c0 = 0
    · rw [if_pos hc0] at h
      exact absurd h (by simp)
    · rw [if_neg hc0] at h
      have h2 := Option.some_inj.mp h
      have hceq : c0 = c := congrArg Prod.fst h2
      have hpeq : pathF = p := congrArg Prod.snd h2
      subst hceq
      subst hpeq
      obtain ⟨hlen, hcost⟩ := hsome c0 rfl
      refine ⟨hlen, hnd, ?_, hhead, hcost⟩
      intro i
      constructor
      · exact hlt i
      · exact fun hi => mem_of_nodup_lt_length hnd hlt hlen i hi

/-- Witness for C2 on the concrete two-station run
`find_best 2 g1 0 = some (5, [0, 1])`. -/
theorem find_best_path_valid_witness :
    ([0, 1] : List ℕ).length = 2 ∧ ([0, 1] : List ℕ).Nodup ∧
    ((0 : ℕ) ∈ ([0, 1] : List ℕ) ↔ (0 : ℕ) < 2) ∧
    ([0, 1] : List ℕ).head? = some 0 ∧
    ((5 : ℚ) : Weight) = pathCostW g1 [0, 1] := by
  have h := find_best_path_valid 2 g1 0 5 [0, 1] (by norm_num)
    (by norm_num +decide [find_best, tsp, next, next_min, g1, List.range_succ])
  exact ⟨h.1, h.2.1, h.2.2.1 0, h.2.2.2.1, h.2.2.2.2⟩

/-- C4: when the walk of `find_best` ends without a result, `find_best`
reports "no result", and the walk indeed stopped short of `N` stations
with every unvisited candidate of its final node at infinite weight;
Scenario B (edges `0→1 = 10`, `1→0 = 1` on three stations, start 0) is
such a run. -/
theorem find_best_no_result_when_stuck :
    (∀ (N : ℕ) (g : ℕ → ℕ → Weight) (start : ℕ), start < N →
      (tsp N g N (List.replicate N false) [] start 0).1 = none →
      find_best N g start = none ∧
      (tsp N g N (List.replicate N false) [] start 0).2.2.length < N ∧
      (∀ i, i < N →
        (tsp N g N (List.replicate N false) [] start 0).2.1.getD i false
          = false →
        g ((tsp N g N (List.replicate N false) [] start 0).2.2.getLastD 0) i
          = ⊤)) ∧
    find_best 3 gB 0 = none := by
  constructor
  · intro N g start hstart hres
    obtain ⟨res, seenF, pathF, heq, _, _, _, _, _, _, hnone⟩ :=
      tsp_initial_spec N g start hstart
    rw [heq] at hres
    have hres' : res = none := hres
    subst hres'
    obtain ⟨hlt, hstuck⟩ := hnone rfl
    refine ⟨?_, ?_, ?_⟩
    · simp only [find_best]
      rw [heq]
    · rw [heq]
      exact hlt
    · rw [heq]
      exact hstuck
  · norm_num +decide [find_best, tsp, next, next_min, gB, List.range_succ]

/-- Witness for C4: instantiating the general part on Scenario B itself. -/
theorem find_best_no_result_when_stuck_witness :
    find_best 3 gB 0 = none ∧
    (tsp 3 gB 3 (List.replicate 3 false) [] 0 0).2.2.length < 3 ∧
    gB ((tsp 3 gB 3 (List.replicate 3 false) [] 0 0).2.2.getLastD 0) 2 = ⊤ := by
  have h := find_best_no_result_when_stuck.1 3 gB 0 (by norm_num)
    (by norm_num +decide [tsp, next, next_min, gB, List.range_succ])
  refine ⟨h.1, h.2.1, h.2.2 2 (by norm_num) ?_⟩
  norm_num +decide [tsp, next, next_min, gB, List.range_succ]

/-- C8: the greedy walk of `find_best` terminates after at most `N`
recursive calls: its final path has at most `N` (pairwise distinct)
entries, and giving the recursion any fuel beyond `N` changes nothing. -/
theorem find_best_terminates (N : ℕ) (g : ℕ → ℕ → Weight) (start : ℕ)
    (_hN : 1 ≤ N) (hstart : start < N) :
    (tsp N g N (List.replicate N false) [] start 0).2.2.length ≤ N ∧
    (tsp N g N (List.replicate N false) [] start 0).2.2.Nodup ∧
    ∀ fuel, N ≤ fuel →
      tsp N g fuel (List.replicate N false) [] start 0 =
        tsp N g N (List.replicate N false) [] start 0 := by
  obtain ⟨res, seenF, pathF, heq, hnd, _, _, _, hle, _, _⟩ :=
    tsp_initial_spec N g start hstart
  refine ⟨?_, ?_, tsp_fuel_ge N g start hstart⟩
  · rw [heq]
    exact hle
  · rw [heq]
    exact hnd

/-- Witness for C8 on a concrete two-station graph with surplus fuel. -/
theorem find_best_terminates_witness :
    (tsp 2 g1 2 (List.replicate 2 false) [] 0 0).2.2.length ≤ 2 ∧
    tsp 2 g1 5 (List.replicate 2 false) [] 0 0 =
      tsp 2 g1 2 (List.replicate 2 false) [] 0 0 := by
  have h := find_best_terminates 2 g1 0 (by norm_num) (by norm_num)
  exact ⟨h.1, h.2.2 5 (by norm_num)⟩

/-- C9: a completed walk whose accumulated cost is 0 is reported as
"no result": the final `if not result` of `find_best` tests the cost for
truthiness instead of comparing it with `None`. -/
theorem find_best_zero_cost_none (N : ℕ) (g : ℕ → ℕ → Weight) (node : ℕ)
    (h : (tsp N g N (List.replicate N false) [] node 0).1 = some 0) :
    find_best N g node = none := by
  simp only [find_best]
  rw [h]
  simp

/-- Witness for C9: the single-station walk completes at cost 0 and
`find_best` drops it. -/
theorem find_best_zero_cost_none_witness :
    (tsp 1 g1 1 (List.replicate 1 false) [] 0 0).1 = some 0 ∧
    find_best 1 g1 0 = none := by
  constructor
  · norm_num +decide [tsp, next, next_min, g1, List.range_succ]
  · exact find_best_zero_cost_none 1 g1 0
      (by norm_num +decide [tsp, next, next_min, g1, List.range_succ])

/-- C5: each extension step (`next`) picks, among the unvisited
candidates, one of minimal weight from the current node — and on ties
the lowest index, since only a strictly smaller weight displaces the
running minimum during the left-to-right scan; the new running cost adds
exactly the selected edge's weight. -/
theorem greedy_step_selects_min (N : ℕ) (g : ℕ → ℕ → Weight)
    (seen : List Bool) (node : ℕ) (curr c : ℚ) (j : ℕ)
    (h : next N g seen node curr = some (c, j)) :
    j < N ∧ seen.getD j false = false ∧
    (∀ i, i < N → seen.getD i false = false → g node j ≤ g node i) ∧
    (∀ i, i < j → seen.getD i false = false → g node j < g node i) ∧
    c = curr + (g node j).untop' 0 := by
  obtain ⟨h1, h2, _, h4, h5, h6⟩ := next_some_char N g seen node curr c j h
  exact ⟨h1, h2, h5, h6, h4⟩

/-- Witness for C5: with candidates 1 and 2 both at weight 5 from
node 0, the scan picks index 1. -/
theorem greedy_step_selects_min_witness :
    (1 : ℕ) < 3 ∧ ([false, false, false].getD 1 false = false) ∧
    gTie 0 1 ≤ gTie 0 2 ∧ (5 : ℚ) = 0 + (gTie 0 1).untop' 0 := by
  have h := greedy_step_selects_min 3 gTie [false, false, false] 0 0 5 1
    (by norm_num +decide [next, next_min, gTie, List.range_succ])
  exact ⟨h.1, h.2.1, h.2.2.1 2 (by norm_num) (by norm_num),
    h.2.2.2.2⟩

/-- Invariant carried by every reachable call state of the greedy
recursion. -/
theorem walkState_invariant (N : ℕ) (g : ℕ → ℕ → Weight) :
    ∀ seen path node cost, WalkState N g seen path node cost →
    seen.length = N ∧ node < N ∧ seen.getD node false = false ∧
    (∀ i, seen.getD i false = true ↔ i ∈ path) ∧ path.Nodup := by
  intro seen path node cost hw
  induction hw with
  | start node0 h =>
    refine ⟨List.length_replicate N false, h, getD_replicate_false N node0,
      ?_, List.nodup_nil⟩
    intro i
    rw [getD_replicate_false]
    simp
  | step seen path node cost c1 n1 hw hne hx ih =>
    obtain ⟨hlen, hnode, hfresh, hmark, hnodup⟩ := ih
    obtain ⟨hn1N, hn1unseen, _, _, _, _⟩ :=
      next_some_char N g (seen.set node true) node cost c1 n1 hx
    have hmem : node ∉ path := fun hm => by
      have := (hmark node).mpr hm
      rw [hfresh] at this
      exact Bool.false_ne_true this
    refine ⟨by rw [List.length_set, hlen], hn1N, hn1unseen, ?_, ?_⟩
    · intro i
      by_cases hi : i = node
      · subst hi
        rw [getD_set_self seen i true false (hlen ▸ hnode)]
        simp
      · rw [getD_set_ne seen node i true false (fun h => hi h.symm)]
        rw [hmark i]
        simp [hi]
    · refine List.Nodup.append hnodup (List.nodup_singleton _) ?_
      intro a ha hb
      rw [List.mem_singleton] at hb
      subst hb
      exact hmem ha

/-- C10: at every recursive call boundary of the greedy walk — also in
runs that end with "no result" — the visited-set marks exactly the nodes
of the partial path, each path node occurs once, and the node about to
be processed is still absent from the path. -/
theorem walk_invariant (N : ℕ) (g : ℕ → ℕ → Weight) (seen : List Bool)
    (path : List ℕ) (node : ℕ) (cost : ℚ) (i : ℕ)
    (h : WalkState N g seen path node cost) :
    (seen.getD i false = true ↔ i ∈ path) ∧ path.Nodup ∧ node ∉ path ∧
    (path ++ [node]).Nodup := by
  obtain ⟨hlen, hnode, hfresh, hmark, hnodup⟩ :=
    walkState_invariant N g seen path node cost h
  have hmem : node ∉ path := fun hm => by
    have := (hmark node).mpr hm
    rw [hfresh] at this
    exact Bool.false_ne_true this
  refine ⟨hmark i, hnodup, hmem, ?_⟩
  refine List.Nodup.append hnodup (List.nodup_singleton _) ?_
  intro a ha hb
  rw [List.mem_singleton] at hb
  subst hb
  exact hmem ha

/-- Witness for C10 at the call state reached after the step
`0 → 1` on a two-station complete graph. -/
theorem walk_invariant_witness :
    ((((List.replicate 2 false).set 0 true).getD 0 false = true) ↔
      (0 : ℕ) ∈ ([] ++ [0] : List ℕ)) ∧
    ([] ++ [0] : List ℕ).Nodup ∧ (1 : ℕ) ∉ ([] ++ [0] : List ℕ) ∧
    (([] ++ [0] : List ℕ) ++ [1]).Nodup :=
  walk_invariant 2 g1 ((List.replicate 2 false).set 0 true) ([] ++ [0]) 1 5 0
    (WalkState.step (List.replicate 2 false) [] 0 0 5 1
      (WalkState.start 0 (by norm_num))
      (by norm_num)
      (by norm_num +decide [next, next_min, g1, List.range_succ]))

/-! ## Weight Matrix Builder: minimality -/

/-- The per-record update of `to_matr` for a recognized kind: store the
record's weight when strictly smaller than the current cell. -/
def matrStep (v : List (ℕ × ℕ)) (kind : ℤ) (matr : List (List Weight))
    (r : RouteRecord) : List (List Weight) :=
  if ((recWeight kind r : ℚ) : Weight) <
      matrGet matr (vIdx v r.origin) (vIdx v r.dest)
  then matrSet matr (vIdx v r.origin) (vIdx v r.dest)
    ((recWeight kind r : ℚ) : Weight)
  else matr

/-- For a recognized kind the monadic record loop of `to_matr` is the
pure fold of `matrStep`. -/
theorem to_matr_fold (v : List (ℕ × ℕ)) (kind : ℤ)
    (hk : kind = 0 ∨ kind = 1) :
    ∀ (data : List RouteRecord) (matr : List (List Weight)),
      data.foldlM
        (fun matr r =>
          (if kind = 0 then Except.ok r.price
           else if kind = 1 then Except.ok r.duration
           else Except.error invalidKindMsg).map
            (fun item =>
              if (item : Weight) <
                  matrGet matr (vIdx v r.origin) (vIdx v r.dest)
              then matrSet matr (vIdx v r.origin) (vIdx v r.dest)
                (item : Weight)
              else matr)) matr
      = Except.ok (data.foldl (matrStep v kind) matr) := by
  intro data
  induction data with
  | nil =>
    intro matr
    rfl
  | cons r rest ih =>
    intro matr
    rw [List.foldlM_cons, List.foldl_cons]
    rcases hk with hk | hk
    · subst hk
      exact ih (matrStep v 0 matr r)
    · subst hk
      exact ih (matrStep v 1 matr r)

theorem matrStep_dims (v : List (ℕ × ℕ)) (kind : ℤ) (n : ℕ)
    (matr : List (List Weight)) (r : RouteRecord)
    (h1 : matr.length = n) (h2 : ∀ row ∈ matr, row.length = n)
    (hio : vIdx v r.origin < n) :
    (matrStep v kind matr r).length = n ∧
    ∀ row ∈ matrStep v kind matr r, row.length = n := by
  unfold matrStep
  by_cases hlt : ((recWeight kind r : ℚ) : Weight) <
      matrGet matr (vIdx v r.origin) (vIdx v r.dest)
  · rw [if_pos hlt]
    unfold matrSet
    refine ⟨by rw [List.length_set, h1], ?_⟩
    intro row hrow
    rcases List.mem_or_eq_of_mem_set hrow with hmem | heq
    · exact h2 row hmem
    · subst heq
      rw [List.length_set]
      exact h2 _ (getD_mem matr _ [] (h1 ▸ hio))
  · rw [if_neg hlt]
    exact ⟨h1, h2⟩

theorem foldl_matrStep_dims (v : List (ℕ × ℕ)) (kind : ℤ) (n : ℕ) :
    ∀ (data : List RouteRecord) (matr : List (List Weight)),
      matr.length = n → (∀ row ∈ matr, row.length = n) →
      (∀ r ∈ data, vIdx v r.origin < n) →
      (data.foldl (matrStep v kind) matr).length = n ∧
      ∀ row ∈ data.foldl (matrStep v kind) matr, row.length = n := by
  intro data
  induction data with
  | nil =>
    intro matr h1 h2 _
    exact ⟨h1, h2⟩
  | cons r rest ih =>
    intro matr h1 h2 hin
    rw [List.foldl_cons]
    obtain ⟨d1, d2⟩ := matrStep_dims v kind n matr r h1 h2
      (hin r (List.mem_cons_self r rest))
    exact ih _ d1 d2 (fun r' hr' => hin r' (List.mem_cons_of_mem r hr'))

theorem matrGet_matrSet_self (m : List (List Weight)) (i j : ℕ) (x : Weight)
    (hi : i < m.length) (hj : j < (m.getD i []).length) :
    matrGet (matrSet m i j x) i j = x := by
  unfold matrGet matrSet
  rw [getD_set_self m i _ [] hi, getD_set_self _ j x ⊤ hj]

theorem matrGet_matrSet_ne (m : List (List Weight)) (i' j' i j : ℕ)
    (x : Weight) (h : ¬(i' = i ∧ j' = j)) :
    matrGet (matrSet m i' j' x) i j = matrGet m i j := by
  unfold matrGet matrSet
  by_cases hi : i' = i
  · subst hi
    have hj : j' ≠ j := fun hj => h ⟨rfl, hj⟩
    by_cases hlen : i' < m.length
    · rw [getD_set_self m i' _ [] hlen, getD_set_ne _ j' j x ⊤ hj]
    · rw [getD_eq_default _ i' []
        (by rw [List.length_set]; exact le_of_not_lt hlen),
        getD_eq_default m i' [] (le_of_not_lt hlen)]
  · rw [getD_set_ne m i' i _ [] hi]

theorem getD_replicate_lt {α : Type} (n i : ℕ) (a d : α) (h : i < n) :
    (List.replicate n a).getD i d = a := by
  simp [List.getD_eq_getElem?_getD, List.getElem?_replicate, h]

theorem getD_replicate_self {α : Type} (n i : ℕ) (a : α) :
    (List.replicate n a).getD i a = a := by
  rw [List.getD_eq_getElem?_getD, List.getElem?_replicate]
  split <;> rfl

theorem matrGet_replicate_top (n i j : ℕ) :
    matrGet (List.replicate n (List.replicate n (⊤ : Weight))) i j = ⊤ := by
  unfold matrGet
  by_cases hi : i < n
  · rw [getD_replicate_lt n i _ [] hi, getD_replicate_self]
  · rw [getD_eq_default _ i [] (by simpa using le_of_not_lt hi)]
    rfl

theorem cellMin_cons (v : List (ℕ × ℕ)) (kind : ℤ) (r : RouteRecord)
    (rest : List RouteRecord) (i j : ℕ) :
    cellMin v (r :: rest) kind i j =
      if vIdx v r.origin = i ∧ vIdx v r.dest = j
      then min ((recWeight kind r : ℚ) : Weight) (cellMin v rest kind i j)
      else cellMin v rest kind i j := by
  unfold cellMin
  rw [List.filter_cons]
  by_cases h : vIdx v r.origin = i ∧ vIdx v r.dest = j
  · rw [if_pos (show (vIdx v r.origin == i && vIdx v r.dest == j) = true by
      simp [h.1, h.2]), if_pos h, List.map_cons, List.foldr_cons]
  · rw [if_neg (show ¬((vIdx v r.origin == i && vIdx v r.dest == j) = true) by
      simpa using h), if_neg h]

/-- Each cell of the fold of `matrStep` over the records is the minimum
of its initial value and the weights of all contributing records. -/
theorem foldl_matrStep_get (v : List (ℕ × ℕ)) (kind : ℤ) (n : ℕ) :
    ∀ (data : List RouteRecord) (matr : List (List Weight)),
      matr.length = n → (∀ row ∈ matr, row.length = n) →
      (∀ r ∈ data, vIdx v r.origin < n ∧ vIdx v r.dest < n) →
      ∀ i, i < n → ∀ j, j < n →
        matrGet (data.foldl (matrStep v kind) matr) i j =
          min (matrGet matr i j) (cellMin v data kind i j) := by
  intro data
  induction data with
  | nil =>
    intro matr _ _ _ i _ j _
    rw [List.foldl_nil]
    have hnil : cellMin v [] kind i j = ⊤ := rfl
    rw [hnil, min_eq_left le_top]
  | cons r rest ih =>
    intro matr h1 h2 hin i hi j hj
    rw [List.foldl_cons, cellMin_cons]
    obtain ⟨ho, _⟩ := hin r (List.mem_cons_self r rest)
    have hdims := matrStep_dims v kind n matr r h1 h2 ho
    rw [ih (matrStep v kind matr r) hdims.1 hdims.2
      (fun r' hr' => hin r' (List.mem_cons_of_mem r hr')) i hi j hj]
    by_cases hm : vIdx v r.origin = i ∧ vIdx v r.dest = j
    · rw [if_pos hm]
      obtain ⟨hm1, hm2⟩ := hm
      by_cases hlt : ((recWeight kind r : ℚ) : Weight) <
          matrGet matr (vIdx v r.origin) (vIdx v r.dest)
      · have hstep : matrStep v kind matr r =
            matrSet matr (vIdx v r.origin) (vIdx v r.dest)
              ((recWeight kind r : ℚ) : Weight) := by
          unfold matrStep
          rw [if_pos hlt]
        have hrow : (matr.getD i []).length = n :=
          h2 _ (getD_mem matr i [] (h1 ▸ hi))
        have hlt' : ((recWeight kind r : ℚ) : Weight) < matrGet matr i j := by
          rw [← hm1, ← hm2]
          exact hlt
        rw [hstep, hm1, hm2,
          matrGet_matrSet_self matr i j _ (h1 ▸ hi) (hrow ▸ hj),
          ← min_assoc, min_eq_right (le_of_lt hlt')]
      · have hstep : matrStep v kind matr r = matr := by
          unfold matrStep
          rw [if_neg hlt]
        have hle' : matrGet matr i j ≤ ((recWeight kind r : ℚ) : Weight) := by
          rw [← hm1, ← hm2]
          exact not_lt.mp hlt
        rw [hstep, ← min_assoc, min_eq_left hle']
    · rw [if_neg hm]
      have hget : matrGet (matrStep v kind matr r) i j = matrGet matr i j := by
        unfold matrStep
        by_cases hlt : ((recWeight kind r : ℚ) : Weight) <
            matrGet matr (vIdx v r.origin) (vIdx v r.dest)
        · rw [if_pos hlt]
          exact matrGet_matrSet_ne matr _ _ i j _ hm
        · rw [if_neg hlt]
      rw [hget]

/-- C3: for a recognized cost dimension, `to_matr` returns an `N × N`
matrix (`N` the station count) whose cell `(i, j)` is the minimum weight
over all records with origin index `i` and destination index `j`, and
`inf` when no such record exists (both summarized by `cellMin`). -/
theorem to_matr_min (v : List (ℕ × ℕ)) (data : List RouteRecord) (kind : ℤ)
    (hk : kind = 0 ∨ kind = 1)
    (hin : ∀ r ∈ data,
      vIdx v r.origin < v.length ∧ vIdx v r.dest < v.length) :
    ∃ m, to_matr v data kind = Except.ok m ∧
      m.length = v.length ∧ (∀ row ∈ m, row.length = v.length) ∧
      ∀ i, i < v.length → ∀ j, j < v.length →
        matrGet m i j = cellMin v data kind i j := by
  have h0 : (List.replicate v.length
      (List.replicate v.length (⊤ : Weight))).length = v.length := by
    simp
  have h0' : ∀ row ∈ List.replicate v.length
      (List.replicate v.length (⊤ : Weight)), row.length = v.length := by
    intro row hrow
    rw [List.eq_of_mem_replicate hrow]
    simp
  obtain ⟨d1, d2⟩ := foldl_matrStep_dims v kind v.length data _ h0 h0'
    (fun r hr => (hin r hr).1)
  refine ⟨data.foldl (matrStep v kind) _, ?_, d1, d2, ?_⟩
  · exact to_matr_fold v kind hk data _
  · intro i hi j hj
    rw [foldl_matrStep_get v kind v.length data _ h0 h0' hin i hi j hj,
      matrGet_replicate_top, min_eq_right le_top]

/-- Scenario D's station dict: stations 7 and 9. -/
def vD : List (ℕ × ℕ) := [(7, 0), (9, 1)]

/-- Scenario D's records: two routes for the pair `(7, 9)` with prices
20 and 8. -/
def dataD : List RouteRecord :=
  [⟨1, 7, 9, 20, 100⟩, ⟨2, 7, 9, 8, 50⟩]

/-- The matrix Scenario D must produce: cell `(0, 1)` holds 8. -/
def mD : List (List Weight) :=
  [[⊤, ((8 : ℚ) : Weight)], [⊤, ⊤]]

/-- Witness for C3 on Scenario D: duplicate `(origin, destination)`
records with weights 20 and 8 store 8. -/
theorem to_matr_min_witness :
    to_matr vD dataD 0 = Except.ok mD ∧
    matrGet mD 0 1 = cellMin vD dataD 0 0 1 := by
  obtain ⟨m, hm, _, _, hcell⟩ := to_matr_min vD dataD 0 (Or.inl rfl)
    (by decide)
  have heval : to_matr vD dataD 0 = Except.ok mD := by rfl
  have hmD : m = mD := by
    have := hm.symm.trans heval
    exact Except.ok.inj this
  subst hmD
  exact ⟨heval, hcell 0 (by decide) 1 (by decide)⟩

/-! ## Weight Matrix Builder: invalid dimension -/

/-- A one-station dict, for the invalid-kind scenarios. -/
def vOne : List (ℕ × ℕ) := [(7, 0)]

/-- A sample record between the stations of `vOne`. -/
def rEx : RouteRecord := ⟨1, 7, 7, 20, 30⟩

/-- C6 counterexample: with an *empty* record list, an unrecognized kind
does **not** raise — the `raise` sits inside the record loop, so
`to_matr` returns the all-infinity matrix instead of failing. -/
theorem to_matr_invalid_kind_empty_ok :
    to_matr vOne [] 2 = Except.ok [[(⊤ : Weight)]] := rfl

/-- C6 amended: for a *nonempty* record list, an unrecognized kind makes
`to_matr` fail immediately (on the first record, before any cell is
written) with the invalid-argument error, which propagates. -/
theorem to_matr_invalid_kind_error (v : List (ℕ × ℕ))
    (data : List RouteRecord) (kind : ℤ) (hne : data ≠ [])
    (h0 : kind ≠ 0) (h1 : kind ≠ 1) :
    to_matr v data kind = Except.error invalidKindMsg := by
  cases data with
  | nil => exact absurd rfl hne
  | cons r rest =>
    simp only [to_matr, List.foldlM_cons]
    rw [if_neg h0, if_neg h1]
    rfl

/-- Witness for the amended C6 on a concrete record and kind 2. -/
theorem to_matr_invalid_kind_error_witness :
    to_matr vOne [rEx] 2 = Except.error invalidKindMsg :=
  to_matr_invalid_kind_error vOne [rEx] 2 (by simp) (by norm_num)
    (by norm_num)

/-! ## Station Indexer: dense first-seen indexing -/

theorem lookup_mem_keys (v : List (ℕ × ℕ)) (s : ℕ) :
    (v.lookup s).isSome = true ↔ s ∈ v.map Prod.fst := by
  rw [List.lookup_isSome_iff]
  constructor
  · rintro ⟨p, hp, hbeq⟩
    rw [List.mem_map]
    exact ⟨p, hp, (beq_iff_eq.mp hbeq).symm⟩
  · intro hs
    obtain ⟨p, hp, hps⟩ := List.mem_map.mp hs
    exact ⟨p, hp, beq_iff_eq.mpr hps.symm⟩

/-- The invariant of the station dict: values are `0, 1, 2, …` in
insertion order and keys are distinct. -/
def IndexerInv (v : List (ℕ × ℕ)) : Prop :=
  v.map Prod.snd = List.range v.length ∧ (v.map Prod.fst).Nodup

theorem addStation_inv (v : List (ℕ × ℕ)) (s : ℕ) (h : IndexerInv v) :
    IndexerInv (addStation v s) := by
  obtain ⟨h1, h2⟩ := h
  unfold addStation
  by_cases hs : (v.lookup s).isSome = true
  · rw [if_pos hs]
    exact ⟨h1, h2⟩
  · rw [if_neg hs]
    have hnot : s ∉ v.map Prod.fst := fun hm =>
      hs ((lookup_mem_keys v s).mpr hm)
    constructor
    · rw [List.map_append, h1, List.length_append]
      simp [List.range_succ]
    · rw [List.map_append]
      refine List.Nodup.append h2 (List.nodup_singleton _) ?_
      intro a ha hb
      simp only [List.map_cons, List.map_nil, List.mem_singleton] at hb
      subst hb
      exact hnot ha

theorem addStation_mem (v : List (ℕ × ℕ)) (s : ℕ) :
    s ∈ (addStation v s).map Prod.fst := by
  unfold addStation
  by_cases hs : (v.lookup s).isSome = true
  · rw [if_pos hs]
    exact (lookup_mem_keys v s).mp hs
  · rw [if_neg hs]
    rw [List.map_append]
    simp

theorem addStation_mono (v : List (ℕ × ℕ)) (s t : ℕ)
    (h : t ∈ v.map Prod.fst) : t ∈ (addStation v s).map Prod.fst := by
  unfold addStation
  by_cases hs : (v.lookup s).isSome = true
  · rw [if_pos hs]
    exact h
  · rw [if_neg hs]
    rw [List.map_append]
    exact List.mem_append_left _ h

theorem addStation_sub (v : List (ℕ × ℕ)) (s t : ℕ)
    (h : t ∈ (addStation v s).map Prod.fst) :
    t ∈ v.map Prod.fst ∨ t = s := by
  unfold addStation at h
  by_cases hs : (v.lookup s).isSome = true
  · rw [if_pos hs] at h
    exact Or.inl h
  · rw [if_neg hs, List.map_append] at h
    rcases List.mem_append.mp h with h' | h'
    · exact Or.inl h'
    · simp only [List.map_cons, List.map_nil, List.mem_singleton] at h'
      exact Or.inr h'

theorem index_fold_inv :
    ∀ (data : List RouteRecord) (v : List (ℕ × ℕ)), IndexerInv v →
      IndexerInv (data.foldl
        (fun v r => addStation (addStation v r.origin) r.dest) v) := by
  intro data
  induction data with
  | nil => exact fun v h => h
  | cons r rest ih =>
    intro v h
    rw [List.foldl_cons]
    exact ih _ (addStation_inv _ r.dest (addStation_inv _ r.origin h))

theorem index_fold_mono :
    ∀ (data : List RouteRecord) (v : List (ℕ × ℕ)) (t : ℕ),
      t ∈ v.map Prod.fst →
      t ∈ (data.foldl
        (fun v r => addStation (addStation v r.origin) r.dest) v).map
          Prod.fst := by
  intro data
  induction data with
  | nil => exact fun v t h => h
  | cons r rest ih =>
    intro v t h
    rw [List.foldl_cons]
    exact ih _ t (addStation_mono _ r.dest t (addStation_mono _ r.origin t h))

theorem index_fold_mem :
    ∀ (data : List RouteRecord) (v : List (ℕ × ℕ)), ∀ r ∈ data,
      r.origin ∈ (data.foldl
        (fun v r => addStation (addStation v r.origin) r.dest) v).map
          Prod.fst ∧
      r.dest ∈ (data.foldl
        (fun v r => addStation (addStation v r.origin) r.dest) v).map
          Prod.fst := by
  intro data
  induction data with
  | nil =>
    intro v r hr
    exact absurd hr (List.not_mem_nil r)
  | cons r0 rest ih =>
    intro v r hr
    rw [List.foldl_cons]
    rcases List.mem_cons.mp hr with hr' | hr'
    · subst hr'
      constructor
      · exact index_fold_mono rest _ r.origin
          (addStation_mono _ r.dest r.origin (addStation_mem _ r.origin))
      · exact index_fold_mono rest _ r.dest (addStation_mem _ r.dest)
    · exact ih _ r hr'

theorem index_fold_sub :
    ∀ (data : List RouteRecord) (v : List (ℕ × ℕ)) (t : ℕ),
      t ∈ (data.foldl
        (fun v r => addStation (addStation v r.origin) r.dest) v).map
          Prod.fst →
      t ∈ v.map Prod.fst ∨ ∃ r ∈ data, t = r.origin ∨ t = r.dest := by
  intro data
  induction data with
  | nil =>
    intro v t h
    exact Or.inl h
  | cons r0 rest ih =>
    intro v t h
    rw [List.foldl_cons] at h
    rcases ih _ t h with h' | ⟨r, hr, hor⟩
    · rcases addStation_sub _ r0.dest t h' with h'' | h''
      · rcases addStation_sub _ r0.origin t h'' with h3 | h3
        · exact Or.inl h3
        · exact Or.inr ⟨r0, List.mem_cons_self r0 rest, Or.inl h3⟩
      · exact Or.inr ⟨r0, List.mem_cons_self r0 rest, Or.inr h''⟩
    · exact Or.inr ⟨r, List.mem_cons_of_mem r0 hr, hor⟩

/-- C7: the Station Indexer scans origin then destination of each record
in order; the resulting dict maps distinct keys (each station assigned
exactly once) to the values `0, 1, 2, …` in first-seen order (so the
indices are exactly `[0, N)`), its keys are exactly the stations that
occur in the records, and the empty record list yields the empty
mapping.  Determinism holds by construction: `index_stations` is a pure
function of the record sequence. -/
theorem index_stations_spec (data : List RouteRecord) :
    ((index_stations data).map Prod.snd =
      List.range (index_stations data).length) ∧
    ((index_stations data).map Prod.fst).Nodup ∧
    (∀ r ∈ data, r.origin ∈ (index_stations data).map Prod.fst ∧
      r.dest ∈ (index_stations data).map Prod.fst) ∧
    (∀ t ∈ (index_stations data).map Prod.fst,
      ∃ r ∈ data, t = r.origin ∨ t = r.dest) ∧
    index_stations [] = [] := by
  have hinv := index_fold_inv data [] ⟨rfl, List.nodup_nil⟩
  refine ⟨hinv.1, hinv.2, ?_, ?_, rfl⟩
  · exact index_fold_mem data []
  · intro t ht
    rcases index_fold_sub data [] t ht with h' | h'
    · exact absurd h' (List.not_mem_nil t)
    · exact h'

/-- Witness for C7 on Scenario D's records. -/
theorem index_stations_spec_witness :
    ((index_stations dataD).map Prod.snd =
      List.range (index_stations dataD).length) ∧
    ((index_stations dataD).map Prod.fst).Nodup ∧
    (⟨1, 7, 9, 20, 100⟩ : RouteRecord).origin ∈
      (index_stations dataD).map Prod.fst ∧
    index_stations [] = [] := by
  have h := index_stations_spec dataD
  exact ⟨h.1, h.2.1, (h.2.2.1 ⟨1, 7, 9, 20, 100⟩ (by decide)).1, h.2.2.2.2⟩

end Salesman
